import Mathlib

/-!
# A position server and its terminal client

A shallow embedding of `src/server.c` (the datagram handler `handle_packet` and the
receive loop of `run_server`) and of `src/client.c` (`send_command` and the body of
the `while(true)` loop of `run_client`).

Conventions of the embedding.

* A byte is a `Char` (the byte `b` is the character of code `b`); a region of memory
  holding a C string is a `List Char`, and reading at the end of the list reads the
  terminating NUL that the C code stores there (`buffer[bytes_received] = 0`, or the
  terminator of a string literal).
* A pointer into a buffer is the suffix of the buffer that starts at the pointer, so
  two pointers into the same buffer are equal exactly when the suffixes have the same
  length.
* An `int` is an `Int` kept in `[-2^31, 2^31 - 1]`; `+= 1` and `-= 1` on an `int` and the
  conversion `(int)` of a `long` reduce modulo `2^32` into that interval (`wrapInt`).
  ISO C leaves signed overflow undefined; the reduction is what the two's complement
  targets of this program compute.
* `strncmp`, `strchr`, `strtol`, `strlen` and the `%d` conversion of `printf` are C
  library functions; they are modelled after their ISO C descriptions.
* Socket and terminal calls are recorded as events.
-/

namespace Assignment3

/-! ## C integers -/

/-- Smallest value of a 32-bit `int`. -/
def INT_MIN : Int := -2147483648

/-- Largest value of a 32-bit `int`. -/
def INT_MAX : Int := 2147483647

/-- Smallest value of a 64-bit `long`. -/
def LONG_MIN : Int := -9223372036854775808

/-- Largest value of a 64-bit `long`. -/
def LONG_MAX : Int := 9223372036854775807

/-- The value an `int` holds after a result `z` is stored in it: `z` reduced modulo
`2^32` into `[-2^31, 2^31 - 1]`. -/
def wrapInt (z : Int) : Int := (z + 2147483648) % 4294967296 - 2147483648

/-- The integer `z` is representable in an `int`. -/
def int_range (z : Int) : Prop := INT_MIN ≤ z ∧ z ≤ INT_MAX

instance (z : Int) : Decidable (int_range z) := by
  unfold int_range; infer_instance

/-! ## C strings -/

/-- The NUL byte. -/
def NUL : Char := Char.ofNat 0

/-- The byte a pointer points at; at the end of the region it is the terminator. -/
def peek (s : List Char) : Char := s.headD NUL

/-- ISO C `strncmp(s1, s2, n)`: compares at most `n` bytes, stops after a NUL, and
returns the difference of the first pair of bytes that differ (0 when there is none). -/
def strncmp : List Char → List Char → Nat → Int
  | _, _, 0 => 0
  | s1, s2, n + 1 =>
    if peek s1 ≠ peek s2 then ((peek s1).toNat : Int) - ((peek s2).toNat : Int)
    else if peek s1 = NUL then 0
    else strncmp s1.tail s2.tail n

/-- ISO C `strlen(s)`: the number of bytes before the first NUL. -/
def strlen (s : List Char) : Nat := (s.takeWhile (fun c => c != NUL)).length

/-- ISO C `strchr(s, c)` for a byte `c` other than NUL: the pointer to the first `c`
before the terminator, or `none` for the null pointer. -/
def strchr : List Char → Char → Option (List Char)
  | [], _ => none
  | a :: s, c =>
    if a = c then some (a :: s)
    else if a = NUL then none
    else strchr s c

/-! ## The `%d` conversion -/

/-- The character of the decimal digit `d`. -/
def digit_char (d : Nat) : Char := Char.ofNat (48 + d)

/-- Decimal digits of `n`, most significant first (`fuel` bounds the number of digits). -/
def nat_digits : Nat → Nat → List Char
  | 0, _ => []
  | fuel + 1, n =>
    if n < 10 then [digit_char n]
    else nat_digits fuel (n / 10) ++ [digit_char (n % 10)]

/-- The text `printf` writes for `%d`: a minus sign for a negative value, then the
decimal digits of the magnitude. -/
def fmt_d (v : Int) : List Char :=
  if v < 0 then '-' :: nat_digits (v.natAbs + 1) v.natAbs
  else nat_digits (v.natAbs + 1) v.natAbs

/-! ## The server (`server.c`) -/

/-- The `Position` struct of `server.c`. -/
structure Position where
  x : Int
  y : Int
deriving DecidableEq

/-- Size of the receive buffer of `run_server`, less the terminator. -/
def LINE_LEN : Nat := 1024

/-- Size of the reply buffer of `handle_packet` and of the receive buffer of `run_client`. -/
def SIXTY_FOUR : Nat := 64

/-- The initial value of the static `character_position`. -/
def origin : Position := ⟨0, 0⟩

/-- The text of `"New position: (%d, %d)"` for the coordinates `x`, `y`. -/
def position_text (x y : Int) : List Char :=
  "New position: (".toList ++ fmt_d x ++ ", ".toList ++ fmt_d y ++ ")".toList

/-- The reply of `handle_packet` for the updated position: `sprintf` writes the text and
its terminator into `reply`, and `sendto` is given the first `strlen(reply)` bytes. -/
def encode_reply (character_position : Position) : List Char :=
  let reply := position_text character_position.x character_position.y
  reply.take (strlen reply)

/-- What one call of `handle_packet` does: the new value of the static
`character_position`, the line printed on standard output, and the payload given to
`sendto`. -/
structure PacketEffect where
  character_position : Position
  printed : List Char
  sent : List Char
deriving DecidableEq

/-- The function `handle_packet` of `server.c`, with the static `character_position`
passed in and returned. -/
def handle_packet (character_position : Position) (buffer : List Char) (bytes : Nat) :
    PacketEffect :=
  let character_position :=
    if strncmp buffer "UP".toList bytes = 0 then
      { character_position with y := wrapInt (character_position.y - 1) }
    else if strncmp buffer "DOWN".toList bytes = 0 then
      { character_position with y := wrapInt (character_position.y + 1) }
    else if strncmp buffer "LEFT".toList bytes = 0 then
      { character_position with x := wrapInt (character_position.x - 1) }
    else if strncmp buffer "RIGHT".toList bytes = 0 then
      { character_position with x := wrapInt (character_position.x + 1) }
    else character_position
  { character_position := character_position
    printed := position_text character_position.x character_position.y ++ ['\n']
    sent := encode_reply character_position }

/-- One pass of the `while(1)` loop of `run_server` on a received datagram: `recvfrom`
stores at most `sizeof(buffer) - 1` bytes, and `handle_packet` gets the buffer with the
number of bytes stored. -/
def serve (character_position : Position) (datagram : List Char) : PacketEffect :=
  let buffer := datagram.take LINE_LEN
  handle_packet character_position buffer buffer.length

/-- The loop of `run_server` over the datagrams received in order: the final position
and the replies sent, oldest first. A pass in which `recvfrom` returns -1 only calls
`perror` and continues, so it has no entry in the list. -/
def run_server : Position → List (List Char) → Position × List (List Char)
  | p, [] => (p, [])
  | p, d :: ds =>
    let e := serve p d
    let r := run_server e.character_position ds
    (r.1, e.sent :: r.2)

/-! ## The client (`client.c`) -/

/-- The four commands the client sends. -/
inductive Command where
  | UP | DOWN | LEFT | RIGHT
deriving DecidableEq

/-- The string literal `run_client` passes to `send_command` for a command. -/
def Command.literal : Command → List Char
  | .UP => "UP".toList
  | .DOWN => "DOWN".toList
  | .LEFT => "LEFT".toList
  | .RIGHT => "RIGHT".toList

/-- The payload `send_command` gives to `sendto`: the first `strlen(command)` bytes. -/
def send_command (command : List Char) : List Char := command.take (strlen command)

/-- ISO C `isspace` in the C locale: space, and the controls `\t \n \v \f \r`. -/
def isspace (c : Char) : Bool := c.toNat == 32 || (9 ≤ c.toNat && c.toNat ≤ 13)

/-- ISO C `isdigit`. -/
def isdigit (c : Char) : Bool := 48 ≤ c.toNat && c.toNat ≤ 57

/-- The value of a decimal digit character. -/
def digit_value (c : Char) : Nat := c.toNat - 48

/-- The number a run of decimal digits denotes. -/
def digits_value (ds : List Char) : Nat :=
  ds.foldl (fun acc c => acc * 10 + digit_value c) 0

/-- ISO C `strtol(nptr, &endptr, TEN)` for the base `TEN` = 10 of both calls in
`run_client`: skips white space, takes an optional sign and the longest run of decimal
digits, and returns the value (clamped to the range of `long`) with `endptr`; when there
is no digit the value is 0 and `endptr` is `nptr`. -/
def strtol (nptr : List Char) : Int × List Char :=
  let s := nptr.dropWhile isspace
  let negative := peek s == '-'
  let s := if peek s == '-' || peek s == '+' then s.tail else s
  let ds := s.takeWhile isdigit
  if ds.isEmpty then (0, nptr)
  else
    let v : Int := if negative then -(digits_value ds : Int) else (digits_value ds : Int)
    (max LONG_MIN (min LONG_MAX v), s.dropWhile isdigit)

/-- The parsing part of the loop body of `run_client` (from `strchr(buffer, 0x28)` to the
test of the closing bracket): `none` on each path that reaches `continue` or skips the
`if(next_number)` block, and the two `long` values otherwise. -/
def parse_reply (buffer : List Char) : Option (Int × Int) :=
  match strchr buffer '(' with
  | none => none
  | some next_number =>
    let next_number := next_number.tail
    let (lx, endptr) := strtol next_number
    if next_number.length = endptr.length then none
    else
      match strchr endptr ',' with
      | none => none
      | some next_number =>
        let next_number := next_number.tail
        let (ly, endptr) := strtol next_number
        if next_number.length = endptr.length then none
        else if peek endptr ≠ ')' then none
        else some (lx, ly)

/-- The calls the client makes that reach the socket, the terminal or the process. -/
inductive Event where
  | sendto (payload : List Char)
  | recvfrom
  | mvprintw (y x : Int) (text : List Char)
  | refresh
  | perror (text : List Char)
  | endwin
  | close
deriving DecidableEq

/-- How one pass of the loop of `run_client` ends: back at the top of the loop with the
values of `x` and `y`, or in `exit` with a status. -/
inductive Next where
  | loop (x y : Int)
  | exit (status : Nat)
deriving DecidableEq

/-- The curses key code `KEY_DOWN`. -/
def KEY_DOWN : Int := 258

/-- The curses key code `KEY_UP`. -/
def KEY_UP : Int := 259

/-- The curses key code `KEY_LEFT`. -/
def KEY_LEFT : Int := 260

/-- The curses key code `KEY_RIGHT`. -/
def KEY_RIGHT : Int := 261

/-- The value of the character constant of the quit key, the letter q. -/
def KEY_q : Int := (Char.toNat 'q' : Int)

/-- The value of `EXIT_SUCCESS`. -/
def EXIT_SUCCESS : Nat := 0

/-- The value of `EXIT_FAILURE`. -/
def EXIT_FAILURE : Nat := 1

/-- The `switch(ch)` of `run_client`: the events it causes and, when it ends the
process, the exit status. `sendto_ok` and `close_ok` say whether `sendto` and `close`
succeed. -/
def key_switch (ch : Int) (sendto_ok close_ok : Bool) : List Event × Option Nat :=
  let send (command : List Char) : List Event × Option Nat :=
    if sendto_ok then ([Event.sendto (send_command command)], none)
    else ([Event.sendto (send_command command), Event.perror "sendto command".toList],
      some EXIT_FAILURE)
  if ch = KEY_UP then send "UP".toList
  else if ch = KEY_DOWN then send "DOWN".toList
  else if ch = KEY_LEFT then send "LEFT".toList
  else if ch = KEY_RIGHT then send "RIGHT".toList
  else if ch = KEY_q then
    if close_ok then ([Event.endwin, Event.close], some EXIT_SUCCESS)
    else ([Event.endwin, Event.close, Event.perror "Error closing socket".toList],
      some EXIT_FAILURE)
  else ([], none)

/-- The bytes of a datagram that `recvfrom` stores in the `buffer` of `run_client`: at
most `sizeof(buffer) - 1`. -/
def client_buffer (datagram : List Char) : List Char := datagram.take (SIXTY_FOUR - 1)

/-- The coordinates `run_client` takes from a received datagram: the parsed `long`
values converted by `(int)`, or `none` when the parse gives up. -/
def decode_reply (datagram : List Char) : Option (Int × Int) :=
  match parse_reply (client_buffer datagram) with
  | none => none
  | some (lx, ly) => some (wrapInt lx, wrapInt ly)

/-- The rest of the loop body of `run_client` once `recvfrom` has stored a datagram:
the buffer is parsed and, on success, the marker is redrawn at the new coordinates. -/
def handle_reply (x y : Int) (datagram : List Char) : List Event × Next :=
  match decode_reply datagram with
  | none => ([], Next.loop x y)
  | some (x1, y1) =>
    ([Event.mvprintw y x " ".toList, Event.mvprintw y1 x1 "@".toList, Event.refresh],
      Next.loop x1 y1)

/-- One pass of the `while(true)` loop of `run_client`: `ch` is what `getch` returns,
`received` is the datagram `recvfrom` stores (`none` when it returns -1). -/
def client_pass (x y : Int) (ch : Int) (sendto_ok close_ok : Bool)
    (received : Option (List Char)) : List Event × Next :=
  match key_switch ch sendto_ok close_ok with
  | (events, some status) => (events, Next.exit status)
  | (events, none) =>
    match received with
    | none =>
      (events ++ [Event.recvfrom, Event.perror "recvfrom".toList, Event.endwin],
        Next.exit EXIT_FAILURE)
    | some datagram =>
      let r := handle_reply x y datagram
      (events ++ [Event.recvfrom] ++ r.1, r.2)

/-! ## Names for the pieces of `handle_packet` -/

/-- The branch of the `if`/`else if` chain of `handle_packet` that is taken. -/
def decode_command (buffer : List Char) (bytes : Nat) : Option Command :=
  if strncmp buffer "UP".toList bytes = 0 then some Command.UP
  else if strncmp buffer "DOWN".toList bytes = 0 then some Command.DOWN
  else if strncmp buffer "LEFT".toList bytes = 0 then some Command.LEFT
  else if strncmp buffer "RIGHT".toList bytes = 0 then some Command.RIGHT
  else none

/-- The body of the branch of `handle_packet` for a command. -/
def Command.move : Command → Position → Position
  | .UP, p => { p with y := wrapInt (p.y - 1) }
  | .DOWN, p => { p with y := wrapInt (p.y + 1) }
  | .LEFT, p => { p with x := wrapInt (p.x - 1) }
  | .RIGHT, p => { p with x := wrapInt (p.x + 1) }

/-- The datagram the client puts on the wire for a command. -/
def wire (c : Command) : List Char := send_command c.literal

/-- The order in which `handle_packet` tries the literals. -/
def tried : List Command := [Command.UP, Command.DOWN, Command.LEFT, Command.RIGHT]

/-! ## Statements of the specification -/

/-- The text `s` is the base-10 rendering of `v`: a minus sign exactly when `v` is
negative, then a non-empty run of decimal digits that denotes the magnitude of `v` and
does not start with the digit 0 unless it is that single digit; nothing else, so no
padding. -/
def is_dec (s : List Char) (v : Int) : Prop :=
  ∃ ds : List Char, s = (if v < 0 then ['-'] else []) ++ ds ∧ ds ≠ [] ∧
    (∀ c ∈ ds, isdigit c = true) ∧ (ds.head? = some '0' → ds = ['0']) ∧
    digits_value ds = v.natAbs

/-- The equation of the signed sums over unbounded integers, for a run from the origin. -/
def ends_at_signed_sum (cs : List Command) : Prop :=
  (run_server origin (cs.map wire)).1 =
    ⟨(cs.count Command.RIGHT : Int) - (cs.count Command.LEFT : Int),
     (cs.count Command.DOWN : Int) - (cs.count Command.UP : Int)⟩

/-- No opening bracket before the terminator. -/
def no_open_bracket (buffer : List Char) : Prop := strchr buffer '(' = none

/-- No digits are consumed for the first number, read right after the first opening
bracket. -/
def first_number_unparsable (buffer : List Char) : Prop :=
  ∃ p, strchr buffer '(' = some p ∧ (strtol p.tail).2.length = p.tail.length

/-- No comma after the first number. -/
def no_comma (buffer : List Char) : Prop :=
  ∃ p, strchr buffer '(' = some p ∧ strchr (strtol p.tail).2 ',' = none

/-- No digits are consumed for the second number, read right after the comma. -/
def second_number_unparsable (buffer : List Char) : Prop :=
  ∃ p q, strchr buffer '(' = some p ∧ strchr (strtol p.tail).2 ',' = some q ∧
    (strtol q.tail).2.length = q.tail.length

/-- The byte right after the second number is not a closing bracket. -/
def no_close_bracket (buffer : List Char) : Prop :=
  ∃ p q, strchr buffer '(' = some p ∧ strchr (strtol p.tail).2 ',' = some q ∧
    peek (strtol q.tail).2 ≠ ')'

/-- The reply text is malformed in one of the five ways. -/
def malformed (buffer : List Char) : Prop :=
  no_open_bracket buffer ∨ first_number_unparsable buffer ∨ no_comma buffer ∨
    second_number_unparsable buffer ∨ no_close_bracket buffer

/-! # Facts about the model -/

/-! ## Integers -/

theorem wrapInt_of_range {z : Int} (h : int_range z) : wrapInt z = z := by
  unfold int_range INT_MIN INT_MAX at h
  unfold wrapInt
  omega

theorem int_range_wrapInt (z : Int) : int_range (wrapInt z) := by
  unfold int_range INT_MIN INT_MAX wrapInt
  omega

theorem wrapInt_wrapInt_add (a b : Int) : wrapInt (wrapInt a + b) = wrapInt (a + b) := by
  unfold wrapInt
  omega

theorem wrapInt_succ_ne (z : Int) : wrapInt (z + 1) ≠ z := by
  unfold wrapInt
  omega

theorem wrapInt_pred_ne (z : Int) : wrapInt (z - 1) ≠ z := by
  unfold wrapInt
  omega

/-! ## Command matching -/

theorem char_diff_ne_zero {a b : Char} (h : a ≠ b) : ((a.toNat : Int) - (b.toNat : Int)) ≠ 0 := by
  intro h0
  apply h
  have h1 : a.toNat = b.toNat := by omega
  rw [← Char.ofNat_toNat a, ← Char.ofNat_toNat b, h1]

/-- On strings without NUL, `strncmp` bounded by the length of the first string is 0
exactly when the first string is an initial segment of the second. -/
theorem strncmp_length_eq_zero_iff (d : List Char) :
    ∀ l : List Char, NUL ∉ d → (strncmp d l d.length = 0 ↔ d <+: l) := by
  induction d with
  | nil => intro l _; simp [strncmp]
  | cons a d ih =>
    intro l hd
    have ha : a ≠ NUL := fun h => hd (by simp [h])
    have hd1 : NUL ∉ d := fun h => hd (List.mem_cons_of_mem _ h)
    cases l with
    | nil =>
      have : strncmp (a :: d) [] (d.length + 1) ≠ 0 := by
        simp only [strncmp, peek, List.headD_cons, List.headD_nil, ne_eq, ha, not_false_eq_true,
          if_true]
        exact char_diff_ne_zero ha
      simp [this]
    | cons b l =>
      by_cases hab : a = b
      · subst hab
        have h1 : strncmp (a :: d) (a :: l) (d.length + 1) = strncmp d l d.length := by
          simp [strncmp, peek, ha]
        simp only [List.length_cons, h1, ih l hd1, List.cons_prefix_cons, true_and]
      · have : strncmp (a :: d) (b :: l) (d.length + 1) ≠ 0 := by
          simp only [strncmp, peek, List.headD_cons, ne_eq, hab, not_false_eq_true, if_true]
          exact char_diff_ne_zero hab
        simp [this, List.cons_prefix_cons, hab]

theorem handle_packet_position (p : Position) (buffer : List Char) (bytes : Nat) :
    (handle_packet p buffer bytes).character_position =
      match decode_command buffer bytes with
      | some c => c.move p
      | none => p := by
  unfold handle_packet decode_command
  simp only
  split_ifs <;> rfl

theorem handle_packet_sent (p : Position) (buffer : List Char) (bytes : Nat) :
    (handle_packet p buffer bytes).sent =
      encode_reply (handle_packet p buffer bytes).character_position := rfl

theorem move_ne (c : Command) (p : Position) : c.move p ≠ p := by
  intro h
  cases c <;> simp only [Command.move] at h
  · exact wrapInt_pred_ne p.y (congrArg Position.y h)
  · exact wrapInt_succ_ne p.y (congrArg Position.y h)
  · exact wrapInt_pred_ne p.x (congrArg Position.x h)
  · exact wrapInt_succ_ne p.x (congrArg Position.x h)

theorem send_command_literal (c : Command) : send_command c.literal = c.literal := by
  cases c <;> decide

theorem literal_no_NUL (c : Command) : NUL ∉ c.literal := by
  cases c <;> decide

theorem decode_command_wire (c : Command) :
    decode_command (wire c) (wire c).length = some c := by
  cases c <;> decide

/-- The branch taken for a buffer without NUL and its length: the first literal, in the
order tried, that the buffer is an initial segment of. -/
theorem decode_command_eq_find (d : List Char) (hd : NUL ∉ d) :
    decode_command d d.length = tried.find? (fun c => d.isPrefixOf c.literal) := by
  have h := fun l => strncmp_length_eq_zero_iff d l hd
  unfold decode_command
  simp only [h, tried, List.find?_cons, List.find?_nil, Command.literal,
    ← List.isPrefixOf_iff_prefix]
  generalize d.isPrefixOf "UP".toList = b1
  generalize d.isPrefixOf "DOWN".toList = b2
  generalize d.isPrefixOf "LEFT".toList = b3
  generalize d.isPrefixOf "RIGHT".toList = b4
  cases b1 <;> cases b2 <;> cases b3 <;> cases b4 <;> rfl

theorem take_LINE_LEN_prefix_iff (d : List Char) (c : Command) :
    d.take LINE_LEN <+: c.literal ↔ d <+: c.literal := by
  have hc : c.literal.length < LINE_LEN := by cases c <;> decide
  by_cases hd : d.length ≤ LINE_LEN
  · rw [List.take_of_length_le hd]
  · constructor
    · intro h
      have h1 := h.length_le
      rw [List.length_take] at h1
      omega
    · intro h
      have h1 := h.length_le
      omega

theorem NUL_not_mem_take {d : List Char} (h : NUL ∉ d) (n : Nat) : NUL ∉ d.take n :=
  fun hm => h (List.mem_of_mem_take hm)

/-! ## Runs of the server on commands -/

theorem serve_wire_position (p : Position) (c : Command) :
    (serve p (wire c)).character_position = c.move p := by
  have hb : (wire c).take LINE_LEN = wire c := by cases c <;> decide
  unfold serve
  simp only [hb]
  rw [handle_packet_position, decode_command_wire]

theorem run_server_cons_wire (p : Position) (c : Command) (cs : List Command) :
    (run_server p ((c :: cs).map wire)).1 = (run_server (c.move p) (cs.map wire)).1 := by
  simp only [List.map_cons, run_server, serve_wire_position]

theorem move_comm (c1 c2 : Command) (p : Position) :
    c1.move (c2.move p) = c2.move (c1.move p) := by
  cases c1 <;> cases c2 <;> simp only [Command.move, Position.mk.injEq, and_self, true_and,
    and_true] <;> (unfold wrapInt; omega)

theorem move_range (c : Command) (p : Position) (hx : int_range p.x) (hy : int_range p.y) :
    int_range (c.move p).x ∧ int_range (c.move p).y := by
  cases c <;> simp only [Command.move] <;> first
    | exact ⟨hx, int_range_wrapInt _⟩
    | exact ⟨int_range_wrapInt _, hy⟩

/-- From a position whose coordinates are `int` values, a run over commands ends at the
signed sums of the deltas, each reduced into the range of `int`. -/
theorem run_server_wire_sum (cs : List Command) :
    ∀ p : Position, int_range p.x → int_range p.y →
      (run_server p (cs.map wire)).1 =
        ⟨wrapInt (p.x + ((cs.count Command.RIGHT : Int) - (cs.count Command.LEFT : Int))),
         wrapInt (p.y + ((cs.count Command.DOWN : Int) - (cs.count Command.UP : Int)))⟩ := by
  induction cs with
  | nil =>
    intro p hx hy
    simp [run_server, wrapInt_of_range hx, wrapInt_of_range hy]
  | cons c cs ih =>
    intro p hx hy
    obtain ⟨hx1, hy1⟩ := move_range c p hx hy
    rw [run_server_cons_wire, ih (c.move p) hx1 hy1]
    cases c <;> simp only [Command.move, List.count_cons, beq_self_eq_true, if_true,
        Position.mk.injEq, wrapInt_wrapInt_add, reduceCtorEq, beq_iff_eq, if_false,
        Nat.add_zero, Nat.cast_add, Nat.cast_one] <;> refine ⟨?_, ?_⟩ <;>
      first | trivial | (unfold wrapInt; omega)

theorem run_server_wire_perm {l1 l2 : List Command} (h : l1.Perm l2) :
    ∀ p : Position, (run_server p (l1.map wire)).1 = (run_server p (l2.map wire)).1 := by
  induction h with
  | nil => intro p; rfl
  | cons c _ ih => intro p; rw [run_server_cons_wire, run_server_cons_wire, ih]
  | swap a b l =>
    intro p
    rw [run_server_cons_wire, run_server_cons_wire, run_server_cons_wire,
      run_server_cons_wire, move_comm]
  | trans _ _ ih1 ih2 => intro p; rw [ih1, ih2]

/-! ## Decimal digits -/

theorem isdigit_digit_char : ∀ d, d < 10 → isdigit (digit_char d) = true := by decide

theorem digit_value_digit_char : ∀ d, d < 10 → digit_value (digit_char d) = d := by decide

theorem digit_char_ne_zero : ∀ d, d < 10 → 0 < d → digit_char d ≠ '0' := by decide

theorem isdigit_toNat {c : Char} (h : isdigit c = true) : 48 ≤ c.toNat ∧ c.toNat ≤ 57 := by
  simpa [isdigit] using h

theorem not_isspace_of_isdigit {c : Char} (h : isdigit c = true) : isspace c = false := by
  have := isdigit_toNat h
  simp only [isspace, Bool.or_eq_false_iff, beq_eq_false_iff_ne, ne_eq, Bool.and_eq_false_iff,
    decide_eq_false_iff_not]
  omega

theorem ne_of_isdigit {c a : Char} (h : isdigit c = true) (ha : isdigit a = false) : c ≠ a := by
  intro hc
  rw [hc, ha] at h
  exact Bool.noConfusion h

theorem isdigit_NUL : isdigit NUL = false := by decide

theorem digits_value_snoc (ds : List Char) (c : Char) :
    digits_value (ds ++ [c]) = digits_value ds * 10 + digit_value c := by
  simp [digits_value, List.foldl_append]

theorem nat_digits_ne_nil (fuel n : Nat) : nat_digits (fuel + 1) n ≠ [] := by
  unfold nat_digits
  split <;> simp

theorem isdigit_of_mem_nat_digits (fuel : Nat) :
    ∀ n c, c ∈ nat_digits fuel n → isdigit c = true := by
  induction fuel with
  | zero => intro n c h; simp [nat_digits] at h
  | succ fuel ih =>
    intro n c h
    unfold nat_digits at h
    split at h
    · rw [List.mem_singleton] at h
      rw [h]
      exact isdigit_digit_char n (by assumption)
    · rw [List.mem_append, List.mem_singleton] at h
      rcases h with h | h
      · exact ih _ c h
      · rw [h]
        exact isdigit_digit_char _ (Nat.mod_lt n (by decide))

theorem digits_value_nat_digits (fuel : Nat) :
    ∀ n, n < fuel → digits_value (nat_digits fuel n) = n := by
  induction fuel with
  | zero => intro n h; exact absurd h (Nat.not_lt_zero n)
  | succ fuel ih =>
    intro n h
    unfold nat_digits
    split
    · rename_i h10
      simp [digits_value, digit_value_digit_char n h10]
    · rw [digits_value_snoc, ih (n / 10) (by omega),
        digit_value_digit_char _ (Nat.mod_lt n (by decide))]
      omega

theorem length_nat_digits (fuel : Nat) :
    ∀ n k, n < 10 ^ (k + 1) → (nat_digits fuel n).length ≤ k + 1 := by
  induction fuel with
  | zero => intro n k _; simp [nat_digits]
  | succ fuel ih =>
    intro n k h
    unfold nat_digits
    split
    · simp
    · rename_i h10
      cases k with
      | zero => omega
      | succ k =>
        have hk : n / 10 < 10 ^ (k + 1) := by
          rw [Nat.div_lt_iff_lt_mul (by decide)]
          rw [pow_succ] at h
          exact h
        have := ih (n / 10) k hk
        simp only [List.length_append, List.length_singleton]
        omega

theorem head_nat_digits (fuel : Nat) :
    ∀ n, n < fuel → 0 < n → (nat_digits fuel n).head? ≠ some '0' := by
  induction fuel with
  | zero => intro n h; exact absurd h (Nat.not_lt_zero n)
  | succ fuel ih =>
    intro n h hpos
    unfold nat_digits
    split
    · rename_i h10
      simp only [List.head?_cons, ne_eq, Option.some.injEq]
      exact digit_char_ne_zero n h10 hpos
    · have hf : fuel = (fuel - 1) + 1 := by omega
      have hne : nat_digits fuel (n / 10) ≠ [] := by
        rw [hf]
        exact nat_digits_ne_nil _ _
      rw [List.head?_append_of_ne_nil _ hne]
      exact ih (n / 10) (by omega) (by omega)

theorem fmt_d_is_dec (v : Int) : is_dec (fmt_d v) v := by
  refine ⟨nat_digits (v.natAbs + 1) v.natAbs, ?_, nat_digits_ne_nil _ _,
    isdigit_of_mem_nat_digits _ _, ?_, digits_value_nat_digits _ _ (Nat.lt_succ_self _)⟩
  · unfold fmt_d
    split <;> rfl
  · intro h
    by_cases h0 : v.natAbs = 0
    · rw [h0]
      rfl
    · exact absurd h (head_nat_digits _ _ (Nat.lt_succ_self _) (Nat.pos_of_ne_zero h0))

/-! ## Reading numbers back -/

theorem takeWhile_append_stop (p : Char → Bool) (l r : List Char)
    (hl : ∀ c ∈ l, p c = true) (hr : ∀ a, r.head? = some a → p a = false) :
    (l ++ r).takeWhile p = l := by
  induction l with
  | nil =>
    cases r with
    | nil => rfl
    | cons a r => simp [List.takeWhile_cons, hr a rfl]
  | cons a l ih =>
    have ha : p a = true := hl a (List.mem_cons_self a l)
    simp only [List.cons_append, List.takeWhile_cons, ha, if_true]
    rw [ih (fun c hc => hl c (List.mem_cons_of_mem a hc))]

theorem dropWhile_append_stop (p : Char → Bool) (l r : List Char)
    (hl : ∀ c ∈ l, p c = true) (hr : ∀ a, r.head? = some a → p a = false) :
    (l ++ r).dropWhile p = r := by
  induction l with
  | nil =>
    cases r with
    | nil => rfl
    | cons a r => simp [List.dropWhile_cons, hr a rfl]
  | cons a l ih =>
    have ha : p a = true := hl a (List.mem_cons_self a l)
    simp only [List.cons_append, List.dropWhile_cons, ha, if_true]
    exact ih (fun c hc => hl c (List.mem_cons_of_mem a hc))

theorem strtol_fmt_d (ws : List Char) (v : Int) (rest : List Char)
    (hws : ∀ c ∈ ws, isspace c = true) (hmin : LONG_MIN ≤ v) (hmax : v ≤ LONG_MAX)
    (hr : ∀ a, rest.head? = some a → isdigit a = false) :
    strtol (ws ++ (fmt_d v ++ rest)) = (v, rest) := by
  obtain ⟨ds, hs, hne, hdig, -, hval⟩ := fmt_d_is_dec v
  obtain ⟨d0, ds1, rfl⟩ := List.exists_cons_of_ne_nil hne
  have hd0 : isdigit d0 = true := hdig d0 (List.mem_cons_self _ _)
  have htake : (d0 :: ds1 ++ rest).takeWhile isdigit = d0 :: ds1 :=
    takeWhile_append_stop isdigit _ rest hdig hr
  have hdrop : (d0 :: ds1 ++ rest).dropWhile isdigit = rest :=
    dropWhile_append_stop isdigit _ rest hdig hr
  have hhead : (d0 :: ds1 ++ rest).headD NUL = d0 := rfl
  by_cases hv : v < 0
  · rw [if_pos hv] at hs
    have hskip : (ws ++ (fmt_d v ++ rest)).dropWhile isspace = '-' :: (d0 :: ds1 ++ rest) := by
      rw [hs]
      exact dropWhile_append_stop isspace ws _ hws (by intro a ha; simp at ha; rw [← ha]; decide)
    have habs : -(v.natAbs : Int) = v := by omega
    unfold strtol
    simp only [hskip, peek, List.headD_cons, beq_self_eq_true, Bool.true_or, if_true,
      List.tail_cons, htake, List.isEmpty_cons, Bool.false_eq_true, if_false, hdrop, hval]
    rw [habs, min_eq_right hmax, max_eq_right hmin]
  · rw [if_neg hv, List.nil_append] at hs
    have hskip : (ws ++ (fmt_d v ++ rest)).dropWhile isspace = d0 :: ds1 ++ rest := by
      rw [hs]
      exact dropWhile_append_stop isspace ws _ hws
        (by intro a ha; simp at ha; rw [← ha]; exact not_isspace_of_isdigit hd0)
    have hm : (d0 == '-') = false := by
      rw [beq_eq_false_iff_ne]; exact ne_of_isdigit hd0 (by decide)
    have hp : (d0 == '+') = false := by
      rw [beq_eq_false_iff_ne]; exact ne_of_isdigit hd0 (by decide)
    have habs : (v.natAbs : Int) = v := by omega
    unfold strtol
    simp only [hskip, peek, hhead, hm, hp, Bool.or_false,
      Bool.false_eq_true, if_false, htake, List.isEmpty_cons, hdrop, hval]
    rw [habs, min_eq_right hmax, max_eq_right hmin]

theorem NUL_not_mem_fmt_d (v : Int) : NUL ∉ fmt_d v := by
  obtain ⟨ds, hs, -, hdig, -, -⟩ := fmt_d_is_dec v
  rw [hs]
  intro h
  rw [List.mem_append] at h
  rcases h with h | h
  · split at h
    · rw [List.mem_singleton] at h
      exact absurd h (by decide)
    · simp at h
  · have := hdig NUL h
    rw [isdigit_NUL] at this
    exact Bool.noConfusion this

theorem strlen_eq_length {s : List Char} (h : NUL ∉ s) : strlen s = s.length := by
  unfold strlen
  congr 1
  rw [List.takeWhile_eq_self_iff]
  intro c hc
  simp only [bne_iff_ne, ne_eq]
  intro h0
  exact h (h0 ▸ hc)

theorem NUL_not_mem_position_text (x y : Int) : NUL ∉ position_text x y := by
  unfold position_text
  simp only [List.mem_append, not_or]
  exact ⟨⟨⟨⟨by decide, NUL_not_mem_fmt_d x⟩, by decide⟩, NUL_not_mem_fmt_d y⟩, by decide⟩

theorem encode_reply_eq (p : Position) : encode_reply p = position_text p.x p.y := by
  unfold encode_reply
  simp only [strlen_eq_length (NUL_not_mem_position_text p.x p.y), List.take_length]

theorem length_fmt_d {v : Int} (h : int_range v) : (fmt_d v).length ≤ 11 := by
  unfold int_range INT_MIN INT_MAX at h
  have hlen := length_nat_digits (v.natAbs + 1) v.natAbs 9 (by omega)
  unfold fmt_d
  split
  · simp only [List.length_cons]; omega
  · omega

theorem length_position_text {x y : Int} (hx : int_range x) (hy : int_range y) :
    (position_text x y).length ≤ 40 := by
  have h1 := length_fmt_d hx
  have h2 := length_fmt_d hy
  unfold position_text
  simp only [List.length_append]
  have e1 : "New position: (".toList.length = 15 := by decide
  have e2 : ", ".toList.length = 2 := by decide
  have e3 : ")".toList.length = 1 := by decide
  omega

theorem parse_reply_position_text {x y : Int} (hx : int_range x) (hy : int_range y) :
    parse_reply (position_text x y) = some (x, y) := by
  have hxl : LONG_MIN ≤ x ∧ x ≤ LONG_MAX := by
    unfold int_range INT_MIN INT_MAX at hx; unfold LONG_MIN LONG_MAX; omega
  have hyl : LONG_MIN ≤ y ∧ y ≤ LONG_MAX := by
    unfold int_range INT_MIN INT_MAX at hy; unfold LONG_MIN LONG_MAX; omega
  have hopen : strchr (position_text x y) '(' =
      some ('(' :: (fmt_d x ++ (',' :: ' ' :: (fmt_d y ++ [')'])))) := by
    unfold position_text
    simp [strchr, NUL]
  have h1 : strtol (fmt_d x ++ (',' :: ' ' :: (fmt_d y ++ [')']))) =
      (x, ',' :: ' ' :: (fmt_d y ++ [')'])) :=
    strtol_fmt_d [] x _ (by simp) hxl.1 hxl.2 (by intro a ha; simp at ha; rw [← ha]; decide)
  have h2 : strtol (' ' :: (fmt_d y ++ [')'])) = (y, [')']) :=
    strtol_fmt_d [' '] y _ (by decide) hyl.1 hyl.2 (by intro a ha; simp at ha; rw [← ha]; decide)
  have hxne : fmt_d x ≠ [] := by
    obtain ⟨ds, hs, hne, -⟩ := fmt_d_is_dec x
    rw [hs]; simp [hne]
  have hyne : fmt_d y ≠ [] := by
    obtain ⟨ds, hs, hne, -⟩ := fmt_d_is_dec y
    rw [hs]; simp [hne]
  have hxlen : 0 < (fmt_d x).length := List.length_pos.mpr hxne
  have hylen : 0 < (fmt_d y).length := List.length_pos.mpr hyne
  have hcomma : strchr (',' :: ' ' :: (fmt_d y ++ [')'])) ',' =
      some (',' :: ' ' :: (fmt_d y ++ [')'])) := by
    simp only [strchr, if_true]
  have hl1 : ¬ (fmt_d x ++ (',' :: ' ' :: (fmt_d y ++ [')']))).length =
      (',' :: ' ' :: (fmt_d y ++ [')'])).length := by
    simp only [List.length_append, List.length_cons]; omega
  have hl2 : ¬ (' ' :: (fmt_d y ++ [')'])).length = [')'].length := by
    simp only [List.length_append, List.length_cons]; omega
  unfold parse_reply
  rw [hopen]
  simp only [List.tail_cons, h1, hl1, if_false, hcomma, h2, hl2, peek, List.headD_cons, ne_eq,
    not_true_eq_false]

theorem client_buffer_position_text {x y : Int} (hx : int_range x) (hy : int_range y) :
    client_buffer (position_text x y) = position_text x y := by
  unfold client_buffer
  apply List.take_of_length_le
  have := length_position_text hx hy
  unfold SIXTY_FOUR
  omega

/-! ## The rendering of a value is determined by its properties -/

theorem digit_char_digit_value {c : Char} (h : isdigit c = true) :
    digit_char (digit_value c) = c := by
  have := isdigit_toNat h
  unfold digit_char digit_value
  rw [show 48 + (c.toNat - 48) = c.toNat by omega, Char.ofNat_toNat]

theorem digit_value_lt {c : Char} (h : isdigit c = true) : digit_value c < 10 := by
  have := isdigit_toNat h
  unfold digit_value
  omega

theorem digit_value_pos {c : Char} (h : isdigit c = true) (h0 : c ≠ '0') :
    0 < digit_value c := by
  have hr := isdigit_toNat h
  have hne : c.toNat ≠ 48 := by
    intro h48
    apply h0
    rw [← Char.ofNat_toNat c, h48]
  unfold digit_value
  omega

theorem le_foldl_digits (cs : List Char) :
    ∀ a : Nat, a ≤ cs.foldl (fun acc c => acc * 10 + digit_value c) a := by
  induction cs with
  | nil => intro a; exact Nat.le_refl a
  | cons c cs ih =>
    intro a
    simp only [List.foldl_cons]
    exact Nat.le_trans (by omega) (ih _)

theorem digits_value_pos {ds : List Char} (hne : ds ≠ [])
    (hdig : ∀ c ∈ ds, isdigit c = true) (h0 : ds.head? ≠ some '0') : 0 < digits_value ds := by
  obtain ⟨c, cs, rfl⟩ := List.exists_cons_of_ne_nil hne
  have hc : 0 < digit_value c :=
    digit_value_pos (hdig c (List.mem_cons_self _ _)) (by simpa using h0)
  unfold digits_value
  simp only [List.foldl_cons]
  exact Nat.lt_of_lt_of_le (by omega) (le_foldl_digits cs _)

/-- A run of digits without a leading zero is the one `nat_digits` produces for its value. -/
theorem eq_nat_digits (fuel : Nat) :
    ∀ (n : Nat) (ds : List Char), n < fuel → ds ≠ [] → (∀ c ∈ ds, isdigit c = true) →
      (ds.head? = some '0' → ds = ['0']) → digits_value ds = n → ds = nat_digits fuel n := by
  induction fuel with
  | zero => intro n ds h; exact absurd h (Nat.not_lt_zero n)
  | succ fuel ih =>
    intro n ds hn hne hdig hz hval
    rcases List.eq_nil_or_concat ds with h | ⟨init, last, hds⟩
    · exact absurd h hne
    · rw [List.concat_eq_append] at hds
      subst hds
      have hlast : isdigit last = true := hdig last (by simp)
      have hlt := digit_value_lt hlast
      rw [digits_value_snoc] at hval
      unfold nat_digits
      by_cases hinit : init = []
      · subst hinit
        simp only [digits_value, List.foldl_nil, Nat.zero_mul, Nat.zero_add] at hval
        rw [if_pos (by omega), ← hval, digit_char_digit_value hlast]
        rfl
      · have hhead : (init ++ [last]).head? = init.head? := List.head?_append_of_ne_nil _ hinit
        have hz1 : init.head? ≠ some '0' := by
          intro h0
          have := hz (hhead.trans h0)
          have hlen := congrArg List.length this
          have := List.length_pos.mpr hinit
          simp only [List.length_append, List.length_singleton] at hlen
          omega
        have hidig : ∀ c ∈ init, isdigit c = true := fun c hc => hdig c (by simp [hc])
        have hpos := digits_value_pos hinit hidig hz1
        rw [if_neg (by omega)]
        have hdiv : n / 10 = digits_value init := by omega
        have hmod : n % 10 = digit_value last := by omega
        rw [hmod, digit_char_digit_value hlast, hdiv,
          ← ih (digits_value init) init (by omega) hinit hidig (fun h => absurd h hz1) rfl]

theorem is_dec_iff (s : List Char) (v : Int) : is_dec s v ↔ s = fmt_d v := by
  constructor
  · rintro ⟨ds, hs, hne, hdig, hz, hval⟩
    have := eq_nat_digits (v.natAbs + 1) v.natAbs ds (Nat.lt_succ_self _) hne hdig hz hval
    rw [hs, this]
    unfold fmt_d
    split <;> rfl
  · intro h
    rw [h]
    exact fmt_d_is_dec v

/-! ## The client loop -/

theorem parse_reply_of_malformed {buffer : List Char} (h : malformed buffer) :
    parse_reply buffer = none := by
  unfold parse_reply
  rcases h with h | ⟨p, hp, h⟩ | ⟨p, hp, h⟩ | ⟨p, q, hp, hq, h⟩ | ⟨p, q, hp, hq, h⟩
  · rw [show strchr buffer '(' = none from h]
  · simp only [hp, h, if_true]
  · simp only [hp, h]
    split <;> rfl
  · simp only [hp, hq, h, if_true]
    split <;> rfl
  · simp only [hp, hq, h, ne_eq, not_false_eq_true, if_true]
    split
    · rfl
    · split <;> rfl

theorem malformed_of_parse_reply {buffer : List Char} (h : parse_reply buffer = none) :
    malformed buffer := by
  unfold parse_reply at h
  unfold malformed no_open_bracket first_number_unparsable no_comma second_number_unparsable
    no_close_bracket
  cases hp : strchr buffer '(' with
  | none => exact Or.inl rfl
  | some p =>
    simp only [hp] at h
    by_cases h1 : p.tail.length = (strtol p.tail).2.length
    · exact Or.inr (Or.inl ⟨p, rfl, h1.symm⟩)
    · simp only [h1, if_false] at h
      cases hq : strchr (strtol p.tail).2 ',' with
      | none => exact Or.inr (Or.inr (Or.inl ⟨p, rfl, hq⟩))
      | some q =>
        simp only [hq] at h
        by_cases h2 : q.tail.length = (strtol q.tail).2.length
        · exact Or.inr (Or.inr (Or.inr (Or.inl ⟨p, q, rfl, hq, h2.symm⟩)))
        · simp only [h2, if_false] at h
          by_cases h3 : peek (strtol q.tail).2 = ')'
          · simp [h3] at h
          · exact Or.inr (Or.inr (Or.inr (Or.inr ⟨p, q, rfl, hq, h3⟩)))

theorem key_switch_other (ch : Int) (s c : Bool) (h1 : ch ≠ KEY_UP) (h2 : ch ≠ KEY_DOWN)
    (h3 : ch ≠ KEY_LEFT) (h4 : ch ≠ KEY_RIGHT) (h5 : ch ≠ KEY_q) :
    key_switch ch s c = ([], none) := by
  unfold key_switch
  simp only [h1, h2, h3, h4, h5, if_false]

theorem handle_packet_range (p : Position) (buffer : List Char) (bytes : Nat)
    (hx : int_range p.x) (hy : int_range p.y) :
    int_range (handle_packet p buffer bytes).character_position.x ∧
    int_range (handle_packet p buffer bytes).character_position.y := by
  rw [handle_packet_position]
  split
  · exact move_range _ p hx hy
  · exact ⟨hx, hy⟩

theorem client_pass_other (x y ch : Int) (s c : Bool) (received : Option (List Char))
    (h1 : ch ≠ KEY_UP) (h2 : ch ≠ KEY_DOWN) (h3 : ch ≠ KEY_LEFT) (h4 : ch ≠ KEY_RIGHT)
    (h5 : ch ≠ KEY_q) :
    client_pass x y ch s c received =
      match received with
      | none => ([Event.recvfrom, Event.perror "recvfrom".toList, Event.endwin],
          Next.exit EXIT_FAILURE)
      | some datagram =>
        (Event.recvfrom :: (handle_reply x y datagram).1, (handle_reply x y datagram).2) := by
  unfold client_pass key_switch
  simp only [h1, h2, h3, h4, h5, if_false]
  cases received <;> rfl

theorem run_server_origin_sum (cs : List Command) :
    (run_server origin (cs.map wire)).1 =
      ⟨wrapInt ((cs.count Command.RIGHT : Int) - (cs.count Command.LEFT : Int)),
       wrapInt ((cs.count Command.DOWN : Int) - (cs.count Command.UP : Int))⟩ := by
  have h := run_server_wire_sum cs origin (by decide) (by decide)
  simpa only [origin, zero_add] using h

/-! # The claims -/

/-- C1 (as amended): for every finite sequence of the commands UP, DOWN, LEFT, RIGHT
sent by the client and handled in order from the initial position (0,0), the final
position is (#RIGHT - #LEFT, #DOWN - #UP) with each coordinate reduced into the range of
a 32-bit `int`; it is exactly the signed sum of the per-axis deltas whenever both sums
are representable in an `int`. -/
theorem run_from_origin_wrapped_sum (cs : List Command) :
    (run_server origin (cs.map wire)).1 =
      ⟨wrapInt ((cs.count Command.RIGHT : Int) - (cs.count Command.LEFT : Int)),
       wrapInt ((cs.count Command.DOWN : Int) - (cs.count Command.UP : Int))⟩ ∧
    (int_range ((cs.count Command.RIGHT : Int) - (cs.count Command.LEFT : Int)) →
      int_range ((cs.count Command.DOWN : Int) - (cs.count Command.UP : Int)) →
      ends_at_signed_sum cs) := by
  refine ⟨run_server_origin_sum cs, ?_⟩
  intro hx hy
  unfold ends_at_signed_sum
  rw [run_server_origin_sum, wrapInt_of_range hx, wrapInt_of_range hy]

/-- C1, an instance of the amended statement: RIGHT, RIGHT, UP from the origin ends at
the signed sums (2, -1). -/
theorem run_from_origin_wrapped_sum_witness :
    int_range (2 - 0) ∧ int_range (0 - 1) ∧
    ends_at_signed_sum [Command.RIGHT, Command.RIGHT, Command.UP] :=
  ⟨by decide, by decide,
    (run_from_origin_wrapped_sum [Command.RIGHT, Command.RIGHT, Command.UP]).2
      (by decide) (by decide)⟩

/-- C1 as stated fails: after 2^31 RIGHT commands from the origin the `int` field `x`
has passed `INT_MAX`, and the position is not (2^31, 0). -/
theorem signed_sum_fails_after_overflow :
    ¬ ends_at_signed_sum (List.replicate 2147483648 Command.RIGHT) := by
  unfold ends_at_signed_sum
  rw [run_server_origin_sum, List.count_replicate_self, List.count_replicate,
    List.count_replicate, List.count_replicate]
  simp only [Position.mk.injEq, not_and]
  intro h
  exfalso
  revert h
  simp only [reduceCtorEq, beq_iff_eq, if_false]
  unfold wrapInt
  norm_num

/-- C2, the code at datagrams that are none of the four literals: the one-byte datagram
D is handled as DOWN and the empty datagram as UP, each with a reply for the moved
position, while JUMP leaves the position as it is. -/
theorem short_datagram_moves :
    "D".toList ≠ "UP".toList ∧ "D".toList ≠ "DOWN".toList ∧
    "D".toList ≠ "LEFT".toList ∧ "D".toList ≠ "RIGHT".toList ∧
    (serve origin "D".toList).character_position = ⟨0, 1⟩ ∧
    (serve origin "D".toList).sent = "New position: (0, 1)".toList ∧
    (serve origin "".toList).character_position = ⟨0, -1⟩ ∧
    (serve origin "".toList).sent = "New position: (0, -1)".toList ∧
    (serve origin "JUMP".toList).character_position = origin ∧
    (serve origin "JUMP".toList).sent = "New position: (0, 0)".toList := by
  decide

/-- C3: for every position whose coordinates are in the range of an `int`, negative ones
included, the client's parse of the server's reply for that position succeeds and yields
exactly its coordinates, and the client's loop continues with them. -/
theorem reply_round_trip (p : Position) (hx : int_range p.x) (hy : int_range p.y) :
    decode_reply (encode_reply p) = some (p.x, p.y) ∧
    ∀ x y : Int, (handle_reply x y (encode_reply p)).2 = Next.loop p.x p.y := by
  have h : decode_reply (encode_reply p) = some (p.x, p.y) := by
    unfold decode_reply
    rw [encode_reply_eq, client_buffer_position_text hx hy, parse_reply_position_text hx hy]
    simp only [wrapInt_of_range hx, wrapInt_of_range hy]
  refine ⟨h, ?_⟩
  intro x y
  unfold handle_reply
  rw [h]

/-- C3 at the position (-3, 5): the reply is the text `New position: (-3, 5)` and it is
read back as (-3, 5). -/
theorem reply_round_trip_witness :
    int_range (-3) ∧ int_range 5 ∧
    encode_reply ⟨-3, 5⟩ = "New position: (-3, 5)".toList ∧
    decode_reply "New position: (-3, 5)".toList = some (-3, 5) ∧
    decode_reply (encode_reply ⟨-3, 5⟩) = some (-3, 5) :=
  ⟨by decide, by decide, by decide, by decide,
    (reply_round_trip ⟨-3, 5⟩ (by decide) (by decide)).1⟩

/-- C4: for every current position and every received buffer, the payload `handle_packet`
sends is exactly `New position: (` then the rendering of the new x, then a comma and a
space, then the rendering of the new y, then a closing bracket, where the rendering of a
value is the one text that is its base-10 signed rendering with no leading zeros and no
padding; from (0,0), the datagrams RIGHT, RIGHT, UP get the replies for (1,0), (2,0),
(2,-1) and leave the position (2,-1). -/
theorem reply_is_new_position_text (p : Position) (buffer : List Char) (bytes : Nat) :
    (handle_packet p buffer bytes).sent =
      "New position: (".toList ++ fmt_d (handle_packet p buffer bytes).character_position.x ++
        ", ".toList ++ fmt_d (handle_packet p buffer bytes).character_position.y ++
        ")".toList ∧
    (∀ (v : Int) (s : List Char), is_dec s v ↔ s = fmt_d v) ∧
    run_server origin ["RIGHT".toList, "RIGHT".toList, "UP".toList] =
      (⟨2, -1⟩, ["New position: (1, 0)".toList, "New position: (2, 0)".toList,
        "New position: (2, -1)".toList]) := by
  refine ⟨?_, fun v s => is_dec_iff s v, by decide⟩
  rw [handle_packet_sent, encode_reply_eq]
  rfl

/-- C5: for each of the four commands, the payload `send_command` puts on the wire is the
literal itself, `handle_packet` takes the branch of that command for it, so the position
becomes the one the branch of that command computes, which is not the position any other
command would give. -/
theorem command_round_trip (c : Command) :
    send_command c.literal = c.literal ∧
    decode_command (wire c) (wire c).length = some c ∧
    ∀ p : Position, (serve p (wire c)).character_position = c.move p ∧
      ∀ c1 : Command, c1 ≠ c → c1.move p ≠ c.move p := by
  refine ⟨send_command_literal c, decode_command_wire c, ?_⟩
  intro p
  refine ⟨serve_wire_position p c, ?_⟩
  intro c1 hc h
  cases c <;> cases c1 <;> simp only [Command.move, Position.mk.injEq, ne_eq, not_true_eq_false,
    reduceCtorEq, not_false_eq_true] at h hc <;> (unfold wrapInt at h; omega)

/-- C6: for every client position and every received datagram whose stored text is
malformed in one of the five ways, the client takes no coordinates from it, draws
nothing, keeps `x` and `y`, and the pass of the loop ends back at the top of the loop. -/
theorem malformed_reply_is_skipped (x y : Int) (datagram : List Char)
    (h : malformed (client_buffer datagram)) :
    decode_reply datagram = none ∧
    handle_reply x y datagram = ([], Next.loop x y) ∧
    ∀ (ch : Int) (sendto_ok close_ok : Bool) (events : List Event),
      key_switch ch sendto_ok close_ok = (events, none) →
      client_pass x y ch sendto_ok close_ok (some datagram) =
        (events ++ [Event.recvfrom], Next.loop x y) := by
  have hd : decode_reply datagram = none := by
    unfold decode_reply
    rw [parse_reply_of_malformed h]
  have hr : handle_reply x y datagram = ([], Next.loop x y) := by
    unfold handle_reply
    rw [hd]
  refine ⟨hd, hr, ?_⟩
  intro ch s c events hk
  unfold client_pass
  rw [hk]
  simp only [hr, List.append_nil]

/-- C6 at a reply without its closing bracket, received after the key UP with the marker
at (4, 7): nothing is drawn and the loop continues at (4, 7). -/
theorem malformed_reply_is_skipped_witness :
    malformed (client_buffer "New position: (-3, 5".toList) ∧
    client_pass 4 7 KEY_UP true true (some "New position: (-3, 5".toList) =
      ([Event.sendto "UP".toList, Event.recvfrom], Next.loop 4 7) :=
  ⟨Or.inr (Or.inr (Or.inr (Or.inr
      ⟨"(-3, 5".toList, ", 5".toList, by decide, by decide, by decide⟩))),
    (malformed_reply_is_skipped 4 7 "New position: (-3, 5".toList
      (Or.inr (Or.inr (Or.inr (Or.inr
        ⟨"(-3, 5".toList, ", 5".toList, by decide, by decide, by decide⟩))))).2.2
      KEY_UP true true [Event.sendto "UP".toList] (by decide)⟩

/-- C7, the code at the key `a` (code 97), which is neither a directional key nor the
quit key: the pass sends nothing but does call `recvfrom`; with a datagram it goes on to
redraw the marker, and with a failed receive it ends the process with a failure status. -/
theorem other_key_still_waits :
    (97 : Int) ≠ KEY_UP ∧ (97 : Int) ≠ KEY_DOWN ∧ (97 : Int) ≠ KEY_LEFT ∧
    (97 : Int) ≠ KEY_RIGHT ∧ (97 : Int) ≠ KEY_q ∧
    client_pass 0 0 97 true true (some "New position: (4, 5)".toList) =
      ([Event.recvfrom, Event.mvprintw 0 0 " ".toList, Event.mvprintw 5 4 "@".toList,
        Event.refresh], Next.loop 4 5) ∧
    client_pass 0 0 97 true true none =
      ([Event.recvfrom, Event.perror "recvfrom".toList, Event.endwin],
        Next.exit EXIT_FAILURE) := by
  decide

/-- C8: two sequences of commands that are permutations of each other, handled in order
from the same starting position, end at the same position. -/
theorem permuted_commands_same_position (p : Position) (l1 l2 : List Command)
    (h : l1.Perm l2) :
    (run_server p (l1.map wire)).1 = (run_server p (l2.map wire)).1 :=
  run_server_wire_perm h p

/-- C8 at UP, RIGHT, RIGHT and RIGHT, UP, RIGHT from (7, -2). -/
theorem permuted_commands_same_position_witness :
    [Command.UP, Command.RIGHT, Command.RIGHT].Perm
      [Command.RIGHT, Command.UP, Command.RIGHT] ∧
    (run_server ⟨7, -2⟩ ([Command.UP, Command.RIGHT, Command.RIGHT].map wire)).1 =
      (run_server ⟨7, -2⟩ ([Command.RIGHT, Command.UP, Command.RIGHT].map wire)).1 :=
  ⟨by decide, permuted_commands_same_position ⟨7, -2⟩ _ _ (by decide)⟩

/-- C9: for every buffer without a NUL byte handed to `handle_packet` with its length,
the position changes exactly when the buffer is an initial segment (empty and complete
ones included) of one of the four literals, and the branch applied is that of the first
literal, in the order UP, DOWN, LEFT, RIGHT, of which it is one; the empty datagram is
handled as UP (`y -= 1`), and the one-byte datagrams D, L, R as DOWN, LEFT, RIGHT. The
same equivalence holds for a pass of the loop of `run_server` on a datagram of any
length. -/
theorem matching_is_by_initial_segment (p : Position) (d : List Char) (hd : NUL ∉ d) :
    ((handle_packet p d d.length).character_position ≠ p ↔ ∃ c : Command, d <+: c.literal) ∧
    (handle_packet p d d.length).character_position =
      (match tried.find? (fun c => d.isPrefixOf c.literal) with
       | some c => c.move p
       | none => p) ∧
    ((serve p d).character_position ≠ p ↔ ∃ c : Command, d <+: c.literal) ∧
    (handle_packet p [] 0).character_position = { p with y := wrapInt (p.y - 1) } ∧
    (handle_packet p "D".toList 1).character_position = Command.DOWN.move p ∧
    (handle_packet p "L".toList 1).character_position = Command.LEFT.move p ∧
    (handle_packet p "R".toList 1).character_position = Command.RIGHT.move p := by
  have key : ∀ b : List Char, NUL ∉ b →
      ((handle_packet p b b.length).character_position ≠ p ↔
        ∃ c : Command, b <+: c.literal) := by
    intro b hb
    rw [handle_packet_position, decode_command_eq_find b hb]
    constructor
    · intro h
      cases hf : tried.find? (fun c => b.isPrefixOf c.literal) with
      | none => rw [hf] at h; exact absurd rfl h
      | some c =>
        have := List.find?_some hf
        exact ⟨c, List.isPrefixOf_iff_prefix.mp this⟩
    · rintro ⟨c, hc⟩
      cases hf : tried.find? (fun c => b.isPrefixOf c.literal) with
      | none =>
        have := List.find?_eq_none.mp hf c (by cases c <;> decide)
        exact absurd (List.isPrefixOf_iff_prefix.mpr hc) this
      | some c1 => exact move_ne c1 p
  have hpos := handle_packet_position p d d.length
  rw [decode_command_eq_find d hd] at hpos
  refine ⟨key d hd, hpos, ?_, ?_, ?_, ?_, ?_⟩
  · unfold serve
    rw [key (d.take LINE_LEN) (NUL_not_mem_take hd LINE_LEN)]
    simp only [take_LINE_LEN_prefix_iff]
  all_goals (rw [handle_packet_position]; rfl)

/-- C9 at the two-byte datagram LE from the origin: it is handled as LEFT. -/
theorem matching_is_by_initial_segment_witness :
    NUL ∉ "LE".toList ∧
    (handle_packet origin "LE".toList 2).character_position = ⟨-1, 0⟩ ∧
    ((handle_packet origin "LE".toList "LE".toList.length).character_position ≠ origin ↔
      ∃ c : Command, "LE".toList <+: c.literal) :=
  ⟨by decide, by decide, (matching_is_by_initial_segment origin "LE".toList (by decide)).1⟩

/-- C10: for every position whose coordinates are 32-bit `int` values, the reply text has
at most 40 bytes, so with its terminator it fits the 64-byte `reply` buffer, and it is
not longer than the 63 bytes the client stores per receive, so the client's buffer holds
the whole reply; this is so for the reply of every call of `handle_packet` from such a
position. -/
theorem reply_fits_buffers (p : Position) (hx : int_range p.x) (hy : int_range p.y) :
    (position_text p.x p.y).length ≤ 40 ∧
    (position_text p.x p.y).length + 1 ≤ SIXTY_FOUR ∧
    (encode_reply p).length ≤ SIXTY_FOUR - 1 ∧
    client_buffer (encode_reply p) = encode_reply p ∧
    ∀ (buffer : List Char) (bytes : Nat),
      (handle_packet p buffer bytes).sent.length ≤ 40 ∧
      client_buffer (handle_packet p buffer bytes).sent = (handle_packet p buffer bytes).sent := by
  have h := length_position_text hx hy
  refine ⟨h, ?_, ?_, ?_, ?_⟩
  · unfold SIXTY_FOUR; omega
  · rw [encode_reply_eq]; unfold SIXTY_FOUR; omega
  · rw [encode_reply_eq, client_buffer_position_text hx hy]
  · intro buffer bytes
    obtain ⟨hx1, hy1⟩ := handle_packet_range p buffer bytes hx hy
    rw [handle_packet_sent, encode_reply_eq]
    exact ⟨length_position_text hx1 hy1, client_buffer_position_text hx1 hy1⟩

/-- C10 at the position with both coordinates `INT_MIN`, where the reply has exactly 40
bytes. -/
theorem reply_fits_buffers_witness :
    int_range (-2147483648) ∧ int_range (-2147483648) ∧
    (position_text (-2147483648) (-2147483648)).length = 40 ∧
    client_buffer (encode_reply ⟨-2147483648, -2147483648⟩) =
      encode_reply ⟨-2147483648, -2147483648⟩ :=
  ⟨by decide, by decide, by decide,
    (reply_fits_buffers ⟨-2147483648, -2147483648⟩ (by decide) (by decide)).2.2.2.1⟩

end Assignment3
